import Mathlib

/-!
Verification of the OCluDAL active-learning pipeline (`src/OCluDAL.py`).

The development shallowly embeds the pool bookkeeping (`oracle_annotations`),
the sampling strategies (`BvSB_Sampling`, `Entropy_Sampling`, `Random_sampling`),
the phase-1 novelty scan (`step1`) and the metric logging
(`run_classification`, `train_model`, the phase-2 iteration of `step2`).

Conventions of the embedding:
* numpy arrays become Lean lists; float arithmetic is modelled as exact
  arithmetic in a linear ordered field (`ℚ` for concrete evaluations, `ℝ`
  with `Real.log` where the entropy computation needs a logarithm);
* a numpy operation that raises (out-of-range fancy index, the
  `argsort(...)[:, -2]` access on a matrix with fewer than two columns,
  a failed exemplar lookup) is modelled by `Option.none`;
* external collaborators (the sklearn classifier, the one-class SVMs, the
  affinity-propagation clusterer, the metric computations and the random
  source) are passed in as explicit function parameters, mirroring the
  spec's "external collaborator" interfaces.
-/

/-- numpy fancy indexing `xs[idx]`: reads the elements of `xs` at the listed
positions, in the order the positions are given; raises `IndexError`
(modelled as `none`) as soon as a position is out of range.  Mirrors the
reads `self.unlabelled_X_new[indices]` at `OCluDAL.py:132-133`. -/
def fancyIndex {γ : Type} (xs : List γ) : List ℕ → Option (List γ)
  | [] => some []
  | i :: rest =>
    match xs[i]?, fancyIndex xs rest with
    | some v, some vs => some (v :: vs)
    | _, _ => none

/-- `np.delete(xs, idx, axis=0)`: keeps, in their original order, exactly the
rows whose position does not occur in `idx` (a duplicated position is removed
once).  Mirrors `OCluDAL.py:142-143`. -/
def npDelete {γ : Type} (xs : List γ) (idx : List ℕ) : List γ :=
  (xs.enum.filter (fun p => !(decide (p.1 ∈ idx)))).map Prod.snd

/-- Boolean-mask selection `xs[mask]` (numpy boolean indexing): keeps the
rows whose mask entry is `true`, preserving order. -/
def maskSelect {γ : Type} (xs : List γ) (mask : List Bool) : List γ :=
  (xs.zip mask).filterMap (fun p => if p.2 then some p.1 else none)

/-- `np.all(masks, axis=0)` for a list of equal-length boolean rows of length
`len`: position `j` of the result is the conjunction of position `j` of every
row.  Mirrors `OCluDAL.py:260`. -/
def npAllAxis0 (masks : List (List Bool)) (len : ℕ) : List Bool :=
  (List.range len).map (fun j => masks.all (fun m => m.getD j true))

/-- The Python slice `l[-n:]`: the last `n` elements for `1 ≤ n` (all of them
when `n` exceeds the length), but the WHOLE list when `n = 0`, because
`l[-0:]` is `l[0:]`.  Mirrors `np.argsort(entropy)[-n:]` at `OCluDAL.py:234`. -/
def negTailSlice {γ : Type} (l : List γ) (n : ℕ) : List γ :=
  if n = 0 then l else l.drop (l.length - n)

/-- One insertion step of a stable insertion sort on `(position, key)` pairs:
the new pair is placed before the first strictly greater key, hence after any
equal key that is already present. -/
def insertPair {α : Type} [LinearOrder α] (p : ℕ × α) : List (ℕ × α) → List (ℕ × α)
  | [] => [p]
  | q :: t => if p.2 < q.2 then p :: q :: t else q :: insertPair p t

/-- Stable insertion sort of `(position, key)` pairs by key, ascending. -/
def insertionSortPairs {α : Type} [LinearOrder α] (l : List (ℕ × α)) : List (ℕ × α) :=
  l.foldl (fun acc p => insertPair p acc) []

/-- `np.argsort(keys)`: the positions of `keys` reordered so that the
corresponding keys are ascending (stable on ties). -/
def argsort {α : Type} [LinearOrder α] (keys : List α) : List ℕ :=
  (insertionSortPairs keys.enum).map Prod.fst

/-- Fold step for `np.argmax`: keep the current best pair unless a strictly
larger key appears (so the first occurrence of the maximum wins). -/
def npArgmaxAux {α : Type} [LinearOrder α] (best : ℕ × α) : List (ℕ × α) → ℕ × α
  | [] => best
  | q :: t => npArgmaxAux (if best.2 < q.2 then q else best) t

/-- `np.argmax(l)`: position of the first occurrence of the maximum
(`0` on the empty list, where numpy raises; never used on empty rows). -/
def npArgmax {α : Type} [LinearOrder α] (l : List α) : ℕ :=
  match l.enum with
  | [] => 0
  | p :: t => (npArgmaxAux p t).1

/-- `max_prob` of one row (`OCluDAL.py:190,195`): the entry at the first
argmax position. -/
def rowMaxProb {α : Type} [LinearOrderedField α] (row : List α) : α :=
  row.getD (npArgmax row) 0

/-- `second_max_prob` of one row (`OCluDAL.py:191,196`): the entry at position
`np.argsort(row)[-2]`, i.e. at the index stored second-from-last in the
ascending argsort of the row. -/
def rowSecondProb {α : Type} [LinearOrderedField α] (row : List α) : α :=
  row.getD ((argsort row).getD (row.length - 2) 0) 0

/-- The per-row BvSB margin `diff = max_prob - second_max_prob`
(`OCluDAL.py:200`): best-versus-second-best difference. -/
def rowMargin {α : Type} [LinearOrderedField α] (row : List α) : α :=
  rowMaxProb row - rowSecondProb row

/-- `OCluDAL.BvSB_Sampling` (`OCluDAL.py:168-205`): computes the per-row
margin between the two highest class probabilities and returns the positions
of the `n` rows with the smallest margin (`np.argsort(diff)[:n]`).  The code
performs no validation of its own; with fewer than two columns the
`argsort(...)[:, -2]` access raises `IndexError`, modelled as `none`. -/
def BvSB_Sampling {α : Type} [LinearOrderedField α]
    (probalities : List (List α)) (n : ℕ) : Option (List ℕ) :=
  let ncols := (probalities.headD []).length
  if ncols < 2 then none
  else
    let diff := probalities.map rowMargin
    some ((argsort diff).take n)

/-- The per-row Shannon entropy computed by the loop at `OCluDAL.py:224-229`:
`-(sum of p * log p)` over the row, summed left to right. -/
def entropyRow {α : Type} [LinearOrderedField α] (log : α → α) (row : List α) : α :=
  -(row.map (fun p => p * log p)).sum

/-- `OCluDAL.Entropy_Sampling` (`OCluDAL.py:214-236`): computes each row's
entropy and returns `np.argsort(entropy)[-n:]`.  The logarithm of the
(external) float library is a parameter; the function raises nothing. -/
def Entropy_Sampling {α : Type} [LinearOrderedField α]
    (log : α → α) (probalities : List (List α)) (n : ℕ) : List ℕ :=
  let entropy := probalities.map (entropyRow log)
  negTailSlice (argsort entropy) n

/-- A linear-congruential step standing in for numpy's global generator
state.  Modelled from the spec: the concrete pseudo-random source behind
`np.random.choice` is library state external to the repository; only the
fact that `Random_sampling` consumes it matters to the claims. -/
def lcg (g : ℕ) : ℕ := (g * 1103515245 + 12345) % 4294967296

/-- Draw `n` distinct elements of `avail`, consuming generator state. -/
def drawDistinct : ℕ → ℕ → List ℕ → List ℕ × ℕ
  | g, 0, _ => ([], g)
  | g, _ + 1, [] => ([], g)
  | g, n + 1, a :: rest =>
    let avail := a :: rest
    let k := g % avail.length
    let x := avail.getD k 0
    let r := drawDistinct (lcg g) n (avail.eraseIdx k)
    (x :: r.1, r.2)

/-- `OCluDAL.Random_sampling` (`OCluDAL.py:208-211`):
`np.random.choice(len, n, replace=False)`.  Modelled from the spec: draws `n`
distinct unlabelled-relative indices, threading the (external) random state
explicitly. -/
def Random_sampling (g : ℕ) (len n : ℕ) : List ℕ × ℕ :=
  drawDistinct g n (List.range len)

/-- The strategy dispatch of `step2` (`OCluDAL.py:307-313`) with the
implicit global random state made explicit: BvSB and Entropy neither read
nor advance it; Random does both.  An unrecognized strategy name leaves
`indices` unbound in the Python code (a `NameError` at the annotation call),
modelled as `none`. -/
def step2Select {α : Type} [LinearOrderedField α] (log : α → α)
    (sampling_type : String) (g : ℕ) (probalities : List (List α))
    (poolLen n : ℕ) : Option (List ℕ) × ℕ :=
  if sampling_type = "BvSB" then (BvSB_Sampling probalities n, g)
  else if sampling_type = "Random" then
    let r := Random_sampling g poolLen n
    (some r.1, r.2)
  else if sampling_type = "Entropy" then (some (Entropy_Sampling log probalities n), g)
  else (none, g)

/-- One row of the cumulative results table (`OCluDAL.py:394-403`). -/
structure IterationRecord where
  accuracy : ℚ
  f1score : ℚ
  trainAccuracy : ℚ
  numLabelled : ℕ
  damping : ℚ
  preference : ℚ
  trainType : String
  classes : ℕ
deriving DecidableEq

/-- The mutable state of an `OCluDAL` run: the labelled/unlabelled pool
(parallel feature/label arrays), the cumulative results table, the
`training_type` tag, the `damping`/`preference` parameters and the snapshot
of distinct labels taken by `preprocessing` (`OCluDAL.py:119-128`).
`trainCount` is ghost instrumentation counting classifier fits, used only to
state how many training rounds an operation performs. -/
structure RunState (F L : Type) where
  labelled_X : List F
  labelled_y : List L
  unlabelled_X : List F
  unlabelled_y : List L
  data : List IterationRecord
  training_type : String
  damping : ℚ
  preference : ℚ
  unique_labels : List L
  trainCount : ℕ
deriving DecidableEq

/-- `OCluDAL.oracle_annotations` (`OCluDAL.py:131-143`): reads the rows of
the unlabelled arrays at the given unlabelled-relative positions (fancy
indexing, which raises `IndexError` before anything is mutated if a position
is out of range), appends them to the labelled arrays in the order given, and
deletes those positions from the unlabelled arrays.  No uniqueness check is
performed; the `none` result models the `IndexError`, in which case no field
changes (the failing reads at lines 132-133 precede every assignment). -/
def oracle_annotations {F L : Type} (s : RunState F L) (indices : List ℕ) :
    Option (RunState F L) :=
  match fancyIndex s.unlabelled_X indices, fancyIndex s.unlabelled_y indices with
  | some repX, some repY =>
    some { s with
      labelled_X := s.labelled_X ++ repX,
      labelled_y := s.labelled_y ++ repY,
      unlabelled_X := npDelete s.unlabelled_X indices,
      unlabelled_y := npDelete s.unlabelled_y indices }
  | _, _ => none

/-- `OCluDAL.run_classification` (`OCluDAL.py:349-410`): evaluates the
current classifier (external — the test/F1/train metrics are supplied by the
`cm` collaborator), builds one `IterationRecord` from the current state and
concatenates it to the results table.  `classes` is
`len(np.unique(self.labelled_y_new))` (`OCluDAL.py:390`). -/
def run_classification {F L : Type} [DecidableEq L]
    (cm : RunState F L → ℚ × ℚ × ℚ) (s : RunState F L) : RunState F L :=
  let m := cm s
  let r : IterationRecord :=
    { accuracy := m.1
      f1score := m.2.1
      trainAccuracy := m.2.2
      numLabelled := s.labelled_X.length
      damping := s.damping
      preference := s.preference
      trainType := s.training_type
      classes := s.labelled_y.dedup.length }
  { s with data := s.data ++ [r] }

/-- `OCluDAL.train_model` (`OCluDAL.py:146-165`): fits the classifier on the
labelled pool (external; recorded by the ghost `trainCount`) and then runs
`run_classification`, appending one record. -/
def train_model {F L : Type} [DecidableEq L]
    (cm : RunState F L → ℚ × ℚ × ℚ) (s : RunState F L) : RunState F L :=
  run_classification cm { s with trainCount := s.trainCount + 1 }

/-- The labelled rows of one class:
`self.labelled_X_new[self.labelled_y_new == label]` (`OCluDAL.py:255`). -/
def labelRows {F L : Type} [DecidableEq L] (s : RunState F L) (lab : L) : List F :=
  maskSelect s.labelled_X (s.labelled_y.map (fun y => decide (y = lab)))

/-- The per-label novelty masks of `step1` (`OCluDAL.py:253-258`): for each
label in the preprocessing snapshot, fit a one-class SVM on that label's
labelled rows (external collaborator `oc`, mapping the training rows to the
fitted predicate) and flag every unlabelled point. -/
def step1Masks {F L : Type} [DecidableEq L]
    (oc : List F → F → Bool) (s : RunState F L) : List (List Bool) :=
  s.unique_labels.map (fun lab => s.unlabelled_X.map (oc (labelRows s lab)))

/-- `novel_mask = np.all(masks, axis=0)` (`OCluDAL.py:260`). -/
def step1NovelMask {F L : Type} [DecidableEq L]
    (oc : List F → F → Bool) (s : RunState F L) : List Bool :=
  npAllAxis0 (step1Masks oc s) s.unlabelled_X.length

/-- `novel_X = self.unlabelled_X_new[novel_mask]` (`OCluDAL.py:261`). -/
def step1NovelPoints {F L : Type} [DecidableEq L]
    (oc : List F → F → Bool) (s : RunState F L) : List F :=
  maskSelect s.unlabelled_X (step1NovelMask oc s)

/-- The `while` loop of `step1` (`OCluDAL.py:246-282`), with the remaining
iteration budget `max_iter - iter_count` as fuel.  Each pass: novelty scan;
if no novel point exists, break; otherwise cluster (external collaborator
`ap`), map each exemplar back to the first exactly-equal unlabelled row
(`np.where(...)[0][0]`, raising — `none` — if an exemplar matches no row),
annotate, retrain. -/
def step1Loop {F L : Type} [DecidableEq F] [DecidableEq L]
    (cm : RunState F L → ℚ × ℚ × ℚ) (oc : List F → F → Bool)
    (ap : List F → List F) (max_samples : ℕ) :
    ℕ → RunState F L → Option (RunState F L)
  | 0, s => some s
  | fuel + 1, s =>
    if s.labelled_X.length < max_samples then
      let novel_X := step1NovelPoints oc s
      if 0 < novel_X.length then
        let representative_X := ap novel_X
        match representative_X.mapM
            (fun sample => s.unlabelled_X.findIdx? (fun row => decide (row = sample))) with
        | none => none
        | some ridx =>
          match oracle_annotations s ridx with
          | none => none
          | some s1 => step1Loop cm oc ap max_samples fuel (train_model cm s1)
      else some s
    else some s

/-- `OCluDAL.step1` (`OCluDAL.py:240-282`): one training round, then the
novelty/clustering loop with `training_type` set to `'AP'`. -/
def step1 {F L : Type} [DecidableEq F] [DecidableEq L]
    (cm : RunState F L → ℚ × ℚ × ℚ) (oc : List F → F → Bool)
    (ap : List F → List F) (max_iter max_samples : ℕ) (s : RunState F L) :
    Option (RunState F L) :=
  let s1 := train_model cm s
  let s2 := { s1 with training_type := "AP" }
  step1Loop cm oc ap max_samples max_iter s2

/-- One iteration of the `step2` loop (`OCluDAL.py:296-320`): train the
classifier (which itself evaluates and appends a record), evaluate AGAIN
(`self.run_classification(clf)` at line 302, appending a second record),
obtain class probabilities from the external classifier (`proba`), select a
batch by the dispatch of lines 307-313, and annotate it. -/
def step2Iter {F L : Type} [DecidableEq L]
    (cm : RunState F L → ℚ × ℚ × ℚ) (proba : RunState F L → List (List ℚ))
    (qlog : ℚ → ℚ) (sampling_type : String) (n : ℕ) (g : ℕ) (s : RunState F L) :
    Option (RunState F L × ℕ) :=
  let s1 := train_model cm s
  let s2 := run_classification cm s1
  let probalities := proba s2
  let sel := step2Select qlog sampling_type g probalities s2.unlabelled_X.length n
  match sel.1 with
  | none => none
  | some idx =>
    match oracle_annotations s2 idx with
    | none => none
    | some s3 => some (s3, sel.2)

/-- Keys are pairwise ascending along a list of `(position, key)` pairs. -/
def KeySorted {α : Type} [LinearOrder α] (l : List (ℕ × α)) : Prop :=
  l.Pairwise (fun p q => p.2 ≤ q.2)

/-- A concrete pool used by the witnesses: one labelled row, two unlabelled
rows, empty results table. -/
def sPool : RunState ℕ ℕ :=
  { labelled_X := [10], labelled_y := [0], unlabelled_X := [20, 30],
    unlabelled_y := [1, 2], data := [], training_type := "Random",
    damping := 1, preference := -180, unique_labels := [0], trainCount := 0 }

/-- The pool `sPool` after annotating the batch `[0]`. -/
def sPool1 : RunState ℕ ℕ :=
  { labelled_X := [10, 20], labelled_y := [0, 1], unlabelled_X := [30],
    unlabelled_y := [2], data := [], training_type := "Random",
    damping := 1, preference := -180, unique_labels := [0], trainCount := 0 }

/-- A concrete per-label detector family for the C7 witness: a point is
flagged novel by a detector iff it does not occur in that detector's
training rows. -/
def ocW : List ℕ → ℕ → Bool := fun train x => !(train.contains x)

/-- A concrete pool for the C7 witness: two labels, and the unlabelled point
10 coincides with label 0's training row (so detector 0 does not flag it but
detector 1 does), while 99 is flagged by both detectors. -/
def sNov : RunState ℕ ℕ :=
  { labelled_X := [10, 11], labelled_y := [0, 1], unlabelled_X := [10, 99],
    unlabelled_y := [0, 1], data := [], training_type := "Random",
    damping := 1, preference := -180, unique_labels := [0, 1], trainCount := 0 }

/-- The record that one `run_classification` call appends (the dataframe
built at `OCluDAL.py:394-403`). -/
def runRecord {F L : Type} [DecidableEq L] (cm : RunState F L → ℚ × ℚ × ℚ)
    (s : RunState F L) : IterationRecord :=
  { accuracy := (cm s).1
    f1score := (cm s).2.1
    trainAccuracy := (cm s).2.2
    numLabelled := s.labelled_X.length
    damping := s.damping
    preference := s.preference
    trainType := s.training_type
    classes := s.labelled_y.dedup.length }

/-! ### Properties of the stable argsort -/

theorem insertPair_perm {α : Type} [LinearOrder α] (p : ℕ × α) (l : List (ℕ × α)) :
    List.Perm (insertPair p l) (p :: l) := by
  induction l with
  | nil => exact List.Perm.refl _
  | cons q t ih =>
    by_cases h : p.2 < q.2
    · simp [insertPair, h]
    · simp only [insertPair, if_neg h]
      exact (List.Perm.cons q ih).trans (List.Perm.swap p q t)

theorem insertionSort_perm_aux {α : Type} [LinearOrder α]
    (l acc : List (ℕ × α)) :
    List.Perm (l.foldl (fun a p => insertPair p a) acc) (l ++ acc) := by
  induction l generalizing acc with
  | nil => simp
  | cons p t ih =>
    simp only [List.foldl_cons, List.cons_append]
    exact ((ih (insertPair p acc)).trans
      (List.Perm.append_left t (insertPair_perm p acc))).trans List.perm_middle

theorem insertionSortPairs_perm {α : Type} [LinearOrder α] (l : List (ℕ × α)) :
    List.Perm (insertionSortPairs l) l := by
  simpa using insertionSort_perm_aux l []

theorem insertPair_sorted {α : Type} [LinearOrder α] (p : ℕ × α)
    (l : List (ℕ × α)) (h : KeySorted l) : KeySorted (insertPair p l) := by
  induction l with
  | nil => simp [insertPair, KeySorted]
  | cons q t ih =>
    rcases List.pairwise_cons.mp h with ⟨hq, ht⟩
    by_cases hlt : p.2 < q.2
    · simp only [insertPair, if_pos hlt]
      refine List.Pairwise.cons ?_ h
      intro r hr
      rcases List.mem_cons.mp hr with rfl | hr'
      · exact le_of_lt hlt
      · exact le_of_lt (lt_of_lt_of_le hlt (hq r hr'))
    · simp only [insertPair, if_neg hlt]
      refine List.Pairwise.cons ?_ (ih ht)
      intro r hr
      rcases List.mem_cons.mp ((insertPair_perm p t).mem_iff.mp hr) with rfl | hr'
      · exact le_of_not_lt hlt
      · exact hq r hr'

theorem insertionSort_sorted_aux {α : Type} [LinearOrder α]
    (l acc : List (ℕ × α)) (h : KeySorted acc) :
    KeySorted (l.foldl (fun a p => insertPair p a) acc) := by
  induction l generalizing acc with
  | nil => exact h
  | cons p t ih => exact ih _ (insertPair_sorted p acc h)

theorem insertionSortPairs_sorted {α : Type} [LinearOrder α] (l : List (ℕ × α)) :
    KeySorted (insertionSortPairs l) :=
  insertionSort_sorted_aux l [] (List.Pairwise.nil)

theorem argsort_perm_range {α : Type} [LinearOrder α] (keys : List α) :
    List.Perm (argsort keys) (List.range keys.length) := by
  have h := (insertionSortPairs_perm keys.enum).map Prod.fst
  rwa [List.enum_map_fst] at h

theorem argsort_length {α : Type} [LinearOrder α] (keys : List α) :
    (argsort keys).length = keys.length := by
  simpa using (argsort_perm_range keys).length_eq

theorem argsort_nodup {α : Type} [LinearOrder α] (keys : List α) :
    (argsort keys).Nodup :=
  (argsort_perm_range keys).nodup_iff.mpr (List.nodup_range _)

theorem mem_argsort {α : Type} [LinearOrder α] (keys : List α) (i : ℕ) :
    i ∈ argsort keys ↔ i < keys.length := by
  rw [(argsort_perm_range keys).mem_iff, List.mem_range]

/-- Every pair of the sorted enumeration is an original `(position, value)`
pair of `keys`. -/
theorem mem_insertionSortPairs_enum {α : Type} [LinearOrder α]
    (keys : List α) (p : ℕ × α) (hp : p ∈ insertionSortPairs keys.enum) :
    keys[p.1]? = some p.2 :=
  List.mem_enum_iff_getElem?.mp ((insertionSortPairs_perm keys.enum).mem_iff.mp hp)

/-- The core selection property of `argsort`: any position listed among the
first `n` carries a key no larger than the key of any position listed after
the first `n`. -/
theorem argsort_take_drop {α : Type} [LinearOrder α]
    (keys : List α) (n i j : ℕ) (a b : α)
    (hi : i ∈ (argsort keys).take n) (hj : j ∈ (argsort keys).drop n)
    (ha : keys[i]? = some a) (hb : keys[j]? = some b) : a ≤ b := by
  have hmt : (argsort keys).take n = ((insertionSortPairs keys.enum).take n).map Prod.fst := by
    rw [argsort, List.map_take]
  have hmd : (argsort keys).drop n = ((insertionSortPairs keys.enum).drop n).map Prod.fst := by
    rw [argsort, List.map_drop]
  rw [hmt] at hi
  rw [hmd] at hj
  obtain ⟨p, hp, hpe⟩ := List.mem_map.mp hi
  obtain ⟨q, hq, hqe⟩ := List.mem_map.mp hj
  have hsorted : KeySorted (insertionSortPairs keys.enum) := insertionSortPairs_sorted _
  have hsplit : KeySorted ((insertionSortPairs keys.enum).take n
      ++ (insertionSortPairs keys.enum).drop n) := by
    rw [List.take_append_drop]
    exact hsorted
  have hcross : p.2 ≤ q.2 := (List.pairwise_append.mp hsplit).2.2 p hp q hq
  have hpk : keys[p.1]? = some p.2 :=
    mem_insertionSortPairs_enum keys p (List.mem_of_mem_take hp)
  have hqk : keys[q.1]? = some q.2 :=
    mem_insertionSortPairs_enum keys q (List.mem_of_mem_drop hq)
  rw [hpe] at hpk
  rw [hqe] at hqk
  rw [ha] at hpk
  rw [hb] at hqk
  cases Option.some.inj hpk
  cases Option.some.inj hqk
  exact hcross

/-! ### Properties of fancy indexing and `np.delete` -/

theorem fancyIndex_eq_none_iff {γ : Type} (xs : List γ) (idx : List ℕ) :
    fancyIndex xs idx = none ↔ ∃ i ∈ idx, xs.length ≤ i := by
  induction idx with
  | nil => simp [fancyIndex]
  | cons i rest ih =>
    rcases h : xs[i]? with _ | v
    · have hlen : xs.length ≤ i := List.getElem?_eq_none_iff.mp h
      simp only [fancyIndex, h]
      constructor
      · intro _
        exact ⟨i, List.mem_cons_self i rest, hlen⟩
      · intro _
        trivial
    · rcases hr : fancyIndex xs rest with _ | vs
      · simp only [fancyIndex, h, hr]
        constructor
        · intro _
          obtain ⟨j, hj, hjl⟩ := ih.mp hr
          exact ⟨j, List.mem_cons_of_mem i hj, hjl⟩
        · intro _
          trivial
      · simp only [fancyIndex, h, hr]
        constructor
        · intro hc
          exact absurd hc (by simp)
        · rintro ⟨j, hj, hjl⟩
          rcases List.mem_cons.mp hj with rfl | hj'
          · rw [List.getElem?_eq_none_iff.mpr hjl] at h
            exact absurd h (by simp)
          · rw [ih.mpr ⟨j, hj', hjl⟩] at hr
            exact absurd hr (by simp)

theorem fancyIndex_isSome {γ : Type} (xs : List γ) (idx : List ℕ)
    (h : ∀ i ∈ idx, i < xs.length) : ∃ ys, fancyIndex xs idx = some ys := by
  rcases hr : fancyIndex xs idx with _ | ys
  · obtain ⟨i, hi, hil⟩ := (fancyIndex_eq_none_iff xs idx).mp hr
    exact absurd (h i hi) (not_lt.mpr hil)
  · exact ⟨ys, rfl⟩

theorem fancyIndex_length {γ : Type} (xs : List γ) (idx : List ℕ) (ys : List γ)
    (h : fancyIndex xs idx = some ys) : ys.length = idx.length := by
  induction idx generalizing ys with
  | nil =>
    simp only [fancyIndex] at h
    cases Option.some.inj h
    rfl
  | cons i rest ih =>
    rcases hx : xs[i]? with _ | v <;> rcases hr : fancyIndex xs rest with _ | vs <;>
      simp only [fancyIndex, hx, hr] at h <;> cases h
    simp [ih vs hr]

theorem fancyIndex_getElem {γ : Type} (xs : List γ) (idx : List ℕ) (ys : List γ)
    (h : fancyIndex xs idx = some ys) :
    ∀ (k i : ℕ), idx[k]? = some i → ys[k]? = xs[i]? := by
  induction idx generalizing ys with
  | nil =>
    intro k i hk
    rw [List.getElem?_nil] at hk
    cases hk
  | cons j rest ih =>
    rcases hx : xs[j]? with _ | v <;> rcases hr : fancyIndex xs rest with _ | vs <;>
      simp only [fancyIndex, hx, hr] at h <;> cases h
    intro k i hk
    cases k with
    | zero =>
      simp only [List.getElem?_cons_zero] at hk ⊢
      cases Option.some.inj hk
      exact hx.symm
    | succ k' =>
      simp only [List.getElem?_cons_succ] at hk ⊢
      exact ih vs hr k' i hk

theorem npDelete_sublist {γ : Type} (xs : List γ) (idx : List ℕ) :
    List.Sublist (npDelete xs idx) xs := by
  have h : List.Sublist (xs.enum.filter (fun p => !(decide (p.1 ∈ idx)))) xs.enum :=
    List.filter_sublist _
  have h2 := h.map Prod.snd
  rwa [List.enum_map_snd] at h2

theorem length_filter_range_not_mem (idx : List ℕ) (n : ℕ)
    (h : ∀ i ∈ idx, i < n) :
    ((List.range n).filter (fun i => !(decide (i ∈ idx)))).length
      = n - idx.dedup.length := by
  have hperm := (List.range n).filter_append_perm (fun i => decide (i ∈ idx))
  have hlen : ((List.range n).filter (fun i => decide (i ∈ idx))).length
      + ((List.range n).filter (fun i => !(decide (i ∈ idx)))).length = n := by
    have := hperm.length_eq
    simpa [List.length_append] using this
  have hA : List.Perm ((List.range n).filter (fun i => decide (i ∈ idx))) idx.dedup := by
    refine (List.perm_ext_iff_of_nodup ((List.nodup_range n).filter _)
      idx.nodup_dedup).mpr ?_
    intro a
    simp only [List.mem_filter, List.mem_range, List.mem_dedup, decide_eq_true_eq]
    constructor
    · rintro ⟨_, ha⟩
      exact ha
    · intro ha
      exact ⟨h a ha, ha⟩
  have := hA.length_eq
  omega

theorem range_filter_eq_map_fst {γ : Type} (xs : List γ) (idx : List ℕ) :
    (List.range xs.length).filter (fun j => !(decide (j ∈ idx)))
      = (xs.enum.filter (fun p => !(decide (p.1 ∈ idx)))).map Prod.fst := by
  rw [← List.enum_map_fst xs, List.filter_map]
  rfl

theorem npDelete_length {γ : Type} (xs : List γ) (idx : List ℕ)
    (h : ∀ i ∈ idx, i < xs.length) :
    (npDelete xs idx).length = xs.length - idx.dedup.length := by
  have hlen : (npDelete xs idx).length
      = ((List.range xs.length).filter (fun j => !(decide (j ∈ idx)))).length := by
    rw [range_filter_eq_map_fst]
    simp [npDelete]
  rw [hlen, length_filter_range_not_mem idx _ h]

/-- The `t`-th surviving row of `np.delete` is the row of `xs` at the `t`-th
position not listed in `idx`. -/
theorem npDelete_getElem {γ : Type} (xs : List γ) (idx : List ℕ) (t i : ℕ)
    (h : ((List.range xs.length).filter (fun j => !(decide (j ∈ idx))))[t]? = some i) :
    (npDelete xs idx)[t]? = xs[i]? := by
  rw [range_filter_eq_map_fst, List.getElem?_map] at h
  rcases hp : (xs.enum.filter (fun p => !(decide (p.1 ∈ idx))))[t]? with _ | p
  · rw [hp] at h
    cases h
  · rw [hp] at h
    have hpi : p.1 = i := by
      simpa using h
    have hpmem : p ∈ xs.enum := (List.mem_filter.mp (List.getElem?_mem hp)).1
    have hxe : xs[p.1]? = some p.2 := List.mem_enum_iff_getElem?.mp hpmem
    rw [npDelete, List.getElem?_map, hp, ← hpi, hxe]
    rfl

/-! ### The novelty scan of `step1` -/

theorem maskSelect_map_filter {γ : Type} (xs : List γ) (f : γ → Bool) :
    maskSelect xs (xs.map f) = xs.filter f := by
  induction xs with
  | nil => rfl
  | cons x t ih =>
    simp only [maskSelect] at ih
    cases h : f x <;>
      simp [maskSelect, List.filter_cons, h, ih]

theorem list_all_map {γ δ : Type} (l : List γ) (f : γ → δ) (p : δ → Bool) :
    (l.map f).all p = l.all (fun a => p (f a)) := by
  induction l <;> simp_all [List.all_cons]

theorem step1NovelMask_eq_map {F L : Type} [DecidableEq L]
    (oc : List F → F → Bool) (s : RunState F L) :
    step1NovelMask oc s
      = s.unlabelled_X.map
          (fun x => s.unique_labels.all (fun lab => oc (labelRows s lab) x)) := by
  apply List.ext_getElem?
  intro j
  by_cases hj : j < s.unlabelled_X.length
  · rw [step1NovelMask, npAllAxis0, List.getElem?_map, List.getElem?_range hj,
      List.getElem?_map, List.getElem?_eq_getElem hj]
    simp only [Option.map_some', Option.some.injEq, step1Masks, list_all_map]
    apply congrArg (List.all s.unique_labels)
    funext lab
    rw [List.getD_eq_getElem?_getD, List.getElem?_map, List.getElem?_eq_getElem hj]
    rfl
  · have h1 : (step1NovelMask oc s)[j]? = none := by
      apply List.getElem?_eq_none_iff.mpr
      simp [step1NovelMask, npAllAxis0]
      omega
    have h2 : (s.unlabelled_X.map
        (fun x => s.unique_labels.all (fun lab => oc (labelRows s lab) x)))[j]? = none := by
      apply List.getElem?_eq_none_iff.mpr
      simpa using not_lt.mp hj
    rw [h1, h2]

/-- The novel set of `step1` is exactly the set of unlabelled points flagged
by every per-label detector. -/
theorem step1NovelPoints_eq_filter {F L : Type} [DecidableEq L]
    (oc : List F → F → Bool) (s : RunState F L) :
    step1NovelPoints oc s
      = s.unlabelled_X.filter
          (fun x => s.unique_labels.all (fun lab => oc (labelRows s lab) x)) := by
  rw [step1NovelPoints, step1NovelMask_eq_map, maskSelect_map_filter]

/-! ### Selection properties of take/drop over an argsort -/

theorem take_selection {α : Type} [LinearOrder α] (keys : List α) (n i j : ℕ)
    (hi : i ∈ (argsort keys).take n) (hj : j < keys.length)
    (hjn : j ∉ (argsort keys).take n) :
    ∀ a b, keys[i]? = some a → keys[j]? = some b → a ≤ b := by
  intro a b ha hb
  have hjs : j ∈ argsort keys := (mem_argsort keys j).mpr hj
  rw [← List.take_append_drop n (argsort keys), List.mem_append] at hjs
  rcases hjs with hjt | hjd
  · exact absurd hjt hjn
  · exact argsort_take_drop keys n i j a b hi hjd ha hb

theorem drop_selection {α : Type} [LinearOrder α] (keys : List α) (m i j : ℕ)
    (hi : i ∈ (argsort keys).drop m) (hj : j < keys.length)
    (hjn : j ∉ (argsort keys).drop m) :
    ∀ a b, keys[i]? = some a → keys[j]? = some b → b ≤ a := by
  intro a b ha hb
  have hjs : j ∈ argsort keys := (mem_argsort keys j).mpr hj
  rw [← List.take_append_drop m (argsort keys), List.mem_append] at hjs
  rcases hjs with hjt | hjd
  · exact argsort_take_drop keys m j i b a hjt hi hb ha
  · exact absurd hjd hjn

theorem map_getElem_getD {γ δ : Type} (f : γ → δ) (l : List γ) (d : γ) (i : ℕ)
    (h : i < l.length) : (l.map f)[i]? = some (f (l.getD i d)) := by
  rw [List.getElem?_map, List.getElem?_eq_getElem h, Option.map_some',
    List.getD_eq_getElem?_getD, List.getElem?_eq_getElem h]
  rfl

/-! ### Claim theorems -/

/-- C4: for every probability matrix with at least two columns and every `n`
not exceeding its row count, `BvSB_Sampling` returns `n` distinct valid row
positions whose margin between the highest and second-highest class
probability is no larger than the margin of any unselected row; on the matrix
with rows `[0.9, 0.1]`, `[0.5, 0.5]`, `[0.6, 0.4]` and `n = 2` it returns the
positions of the second and third rows (margins `0` and `0.2`), not the first
(margin `0.8`). -/
theorem claim_C4 :
    (∀ (probalities : List (List ℚ)) (c n : ℕ),
      probalities ≠ [] → (∀ r ∈ probalities, r.length = c) → 2 ≤ c →
      n ≤ probalities.length →
      ∃ sel, BvSB_Sampling probalities n = some sel ∧ sel.length = n ∧ sel.Nodup ∧
        (∀ i ∈ sel, i < probalities.length) ∧
        (∀ i ∈ sel, ∀ j < probalities.length, j ∉ sel →
          rowMargin (probalities.getD i []) ≤ rowMargin (probalities.getD j []))) ∧
    BvSB_Sampling [[(9:ℚ)/10, 1/10], [1/2, 1/2], [3/5, 2/5]] 2 = some [1, 2] := by
  constructor
  · intro probs c n hne hrect hc hn
    have hcols : ¬ (probs.headD []).length < 2 := by
      cases probs with
      | nil => exact absurd rfl hne
      | cons r t =>
        have hr := hrect r (List.mem_cons_self r t)
        simp only [List.headD_cons, hr]
        omega
    refine ⟨(argsort (probs.map rowMargin)).take n, ?_, ?_, ?_, ?_, ?_⟩
    · rw [BvSB_Sampling]
      simp only [if_neg hcols]
    · rw [List.length_take, argsort_length, List.length_map]
      omega
    · exact (argsort_nodup _).sublist (List.take_sublist _ _)
    · intro i hi
      have h := (mem_argsort _ i).mp (List.mem_of_mem_take hi)
      simpa using h
    · intro i hi j hj hjn
      have hilen : i < probs.length := by
        have h := (mem_argsort _ i).mp (List.mem_of_mem_take hi)
        simpa using h
      exact take_selection (probs.map rowMargin) n i j hi (by simpa using hj) hjn _ _
        (map_getElem_getD rowMargin probs [] i hilen)
        (map_getElem_getD rowMargin probs [] j hj)
  · norm_num [BvSB_Sampling, rowMargin, rowMaxProb, rowSecondProb, npArgmax, npArgmaxAux,
      argsort, insertionSortPairs, insertPair, List.enum, List.enumFrom, List.getD]

/-- Witness for C4: the general theorem applied to the spec's concrete
probability matrix with batch size 2. -/
theorem claim_C4_witness :
    ∃ sel, BvSB_Sampling [[(9:ℚ)/10, 1/10], [1/2, 1/2], [3/5, 2/5]] 2 = some sel ∧
      sel.length = 2 ∧ sel.Nodup ∧ (∀ i ∈ sel, i < 3) ∧
      (∀ i ∈ sel, ∀ j < 3, j ∉ sel →
        rowMargin ([[(9:ℚ)/10, 1/10], [1/2, 1/2], [3/5, 2/5]].getD i [])
          ≤ rowMargin ([[(9:ℚ)/10, 1/10], [1/2, 1/2], [3/5, 2/5]].getD j [])) := by
  have h := claim_C4.1 [[(9:ℚ)/10, 1/10], [1/2, 1/2], [3/5, 2/5]] 2 2
    (by simp) (by decide) (by norm_num) (by norm_num)
  simpa using h

/-! ### Entropy facts over the reals -/

theorem two_point_entropy_lt_log_two (p : ℝ) (hne : p ≠ 2⁻¹) :
    -(p * Real.log p + (1 - p) * Real.log (1 - p)) < Real.log 2 := by
  have h := Real.binEntropy_lt_log_two.mpr hne
  simp only [Real.binEntropy, Real.log_inv] at h
  nlinarith [h]

theorem entropyRow_pair (log : ℝ → ℝ) (a b : ℝ) :
    entropyRow log [a, b] = -(a * log a + b * log b) := by
  simp only [entropyRow, List.map_cons, List.map_nil, List.sum_cons, List.sum_nil]
  ring

theorem entropyRow_half_half : entropyRow Real.log [(1:ℝ)/2, 1/2] = Real.log 2 := by
  rw [entropyRow_pair, one_div, Real.log_inv]
  ring

theorem entropyRow_nine_tenth : entropyRow Real.log [(9:ℝ)/10, 1/10] < Real.log 2 := by
  have h := two_point_entropy_lt_log_two (9/10) (by norm_num)
  rw [entropyRow_pair]
  norm_num at h ⊢
  linarith [h]

theorem entropyRow_six_tenth : entropyRow Real.log [(3:ℝ)/5, 2/5] < Real.log 2 := by
  have h := two_point_entropy_lt_log_two (3/5) (by norm_num)
  rw [entropyRow_pair]
  norm_num at h ⊢
  linarith [h]

/-- C5, amended at `n = 0`: for every strictly positive probability matrix
and every `n` with `1 ≤ n ≤` row count, `Entropy_Sampling` returns exactly
`n` distinct valid row positions such that the Shannon entropy of every
selected row is at least the entropy of every unselected row; on the matrix
with rows `[0.9, 0.1]`, `[0.5, 0.5]`, `[0.6, 0.4]` and `n = 1` it returns the
position of the `[0.5, 0.5]` row (and never the `[0.9, 0.1]` row).  At
`n = 0` the claim as frozen fails, because the Python slice `[-0:]` returns
every index — see the counterexample. -/
theorem claim_C5 :
    (∀ (probalities : List (List ℝ)) (n : ℕ),
      (∀ r ∈ probalities, ∀ p ∈ r, 0 < p) →
      1 ≤ n → n ≤ probalities.length →
      (Entropy_Sampling Real.log probalities n).length = n ∧
      (Entropy_Sampling Real.log probalities n).Nodup ∧
      (∀ i ∈ Entropy_Sampling Real.log probalities n, i < probalities.length) ∧
      (∀ i ∈ Entropy_Sampling Real.log probalities n, ∀ j < probalities.length,
        j ∉ Entropy_Sampling Real.log probalities n →
          entropyRow Real.log (probalities.getD j [])
            ≤ entropyRow Real.log (probalities.getD i []))) ∧
    Entropy_Sampling Real.log [[(9:ℝ)/10, 1/10], [1/2, 1/2], [3/5, 2/5]] 1 = [1] := by
  have hgen : ∀ (probalities : List (List ℝ)) (n : ℕ),
      (∀ r ∈ probalities, ∀ p ∈ r, 0 < p) →
      1 ≤ n → n ≤ probalities.length →
      (Entropy_Sampling Real.log probalities n).length = n ∧
      (Entropy_Sampling Real.log probalities n).Nodup ∧
      (∀ i ∈ Entropy_Sampling Real.log probalities n, i < probalities.length) ∧
      (∀ i ∈ Entropy_Sampling Real.log probalities n, ∀ j < probalities.length,
        j ∉ Entropy_Sampling Real.log probalities n →
          entropyRow Real.log (probalities.getD j [])
            ≤ entropyRow Real.log (probalities.getD i [])) := by
    intro probs n _hpos h1 hn
    have hkeys : (argsort (probs.map (entropyRow Real.log))).length = probs.length := by
      rw [argsort_length, List.length_map]
    have hE : Entropy_Sampling Real.log probs n
        = (argsort (probs.map (entropyRow Real.log))).drop
            ((argsort (probs.map (entropyRow Real.log))).length - n) := by
      simp only [Entropy_Sampling]
      rw [negTailSlice, if_neg (by omega)]
    refine ⟨?_, ?_, ?_, ?_⟩
    · rw [hE, List.length_drop]
      omega
    · rw [hE]
      exact (argsort_nodup _).sublist (List.drop_sublist _ _)
    · intro i hi
      rw [hE] at hi
      have h := (mem_argsort _ i).mp (List.mem_of_mem_drop hi)
      simpa using h
    · intro i hi j hj hjn
      rw [hE] at hi hjn
      have hilen : i < probs.length := by
        have h := (mem_argsort _ i).mp (List.mem_of_mem_drop hi)
        simpa using h
      exact drop_selection (probs.map (entropyRow Real.log)) _ i j hi
        (by simpa using hj) hjn _ _
        (map_getElem_getD (entropyRow Real.log) probs [] i hilen)
        (map_getElem_getD (entropyRow Real.log) probs [] j hj)
  refine ⟨hgen, ?_⟩
  have hpos : ∀ r ∈ [[(9:ℝ)/10, 1/10], [1/2, 1/2], [3/5, 2/5]], ∀ p ∈ r, 0 < p := by
    intro r hr
    fin_cases hr <;> intro p hp <;> fin_cases hp <;> norm_num
  obtain ⟨hlen, _hnd, hmem, hsel⟩ :=
    hgen [[(9:ℝ)/10, 1/10], [1/2, 1/2], [3/5, 2/5]] 1 hpos (by norm_num) (by norm_num)
  obtain ⟨i, hi⟩ := List.length_eq_one.mp hlen
  have hiself : i ∈ Entropy_Sampling Real.log
      [[(9:ℝ)/10, 1/10], [1/2, 1/2], [3/5, 2/5]] 1 := by
    rw [hi]
    exact List.mem_singleton_self i
  have hibound : i < 3 := by
    have h := hmem i hiself
    simpa using h
  interval_cases i
  · exfalso
    have h := hsel 0 hiself 1 (by norm_num) (by rw [hi]; decide)
    rw [show ([[(9:ℝ)/10, 1/10], [1/2, 1/2], [3/5, 2/5]].getD 1 []) = [(1:ℝ)/2, 1/2] from rfl,
      show ([[(9:ℝ)/10, 1/10], [1/2, 1/2], [3/5, 2/5]].getD 0 []) = [(9:ℝ)/10, 1/10] from rfl,
      entropyRow_half_half] at h
    exact absurd h (not_le.mpr entropyRow_nine_tenth)
  · exact hi
  · exfalso
    have h := hsel 2 hiself 1 (by norm_num) (by rw [hi]; decide)
    rw [show ([[(9:ℝ)/10, 1/10], [1/2, 1/2], [3/5, 2/5]].getD 1 []) = [(1:ℝ)/2, 1/2] from rfl,
      show ([[(9:ℝ)/10, 1/10], [1/2, 1/2], [3/5, 2/5]].getD 2 []) = [(3:ℝ)/5, 2/5] from rfl,
      entropyRow_half_half] at h
    exact absurd h (not_le.mpr entropyRow_six_tenth)

/-- C5 counterexample: with `n = 0` (allowed by the frozen claim, which asks
for `0 ≤ n`) `Entropy_Sampling` does NOT return `0` indices: the Python slice
`[-0:]` is the whole array, so on a one-row matrix it returns one index. -/
theorem claim_C5_counterexample :
    (Entropy_Sampling Real.log [[(1:ℝ)/2, 1/2]] 0).length = 1 ∧ (1:ℕ) ≠ 0 := by
  exact ⟨rfl, by decide⟩

/-- Witness for C5: the general theorem applied to the spec's concrete
matrix with batch size 1. -/
theorem claim_C5_witness :
    (Entropy_Sampling Real.log [[(9:ℝ)/10, 1/10], [1/2, 1/2], [3/5, 2/5]] 1).length = 1 ∧
    (Entropy_Sampling Real.log [[(9:ℝ)/10, 1/10], [1/2, 1/2], [3/5, 2/5]] 1).Nodup := by
  have hpos : ∀ r ∈ [[(9:ℝ)/10, 1/10], [1/2, 1/2], [3/5, 2/5]], ∀ p ∈ r, 0 < p := by
    intro r hr
    fin_cases hr <;> intro p hp <;> fin_cases hp <;> norm_num
  have h := claim_C5.1 [[(9:ℝ)/10, 1/10], [1/2, 1/2], [3/5, 2/5]] 1 hpos
    (by norm_num) (by norm_num)
  exact ⟨h.1, h.2.1⟩

theorem headD_length_not_lt {α : Type} (probs : List (List α)) (c : ℕ)
    (hne : probs ≠ []) (hrect : ∀ r ∈ probs, r.length = c) (hc : 2 ≤ c) :
    ¬ (probs.headD []).length < 2 := by
  cases probs with
  | nil => exact absurd rfl hne
  | cons r t =>
    have hr := hrect r (List.mem_cons_self r t)
    simp only [List.headD_cons, hr]
    omega

/-- C6, amended: the samplers perform no batch-size validation and no
`ConfigurationError` exists in the code.  When `n` exceeds the row count,
`BvSB_Sampling` succeeds and returns ALL row positions (fewer than `n`), and
`Entropy_Sampling` likewise returns all row positions; with fewer than two
probability columns `BvSB_Sampling` fails with numpy's `IndexError` (the
`argsort(...)[:, -2]` access, modelled as `none`) — not `ConfigurationError`
— while `Entropy_Sampling` completes without any error. -/
theorem claim_C6 :
    (∀ (probalities : List (List ℚ)) (c n : ℕ),
      probalities ≠ [] → (∀ r ∈ probalities, r.length = c) → 2 ≤ c →
      probalities.length < n →
      ∃ sel, BvSB_Sampling probalities n = some sel ∧
        sel.length = probalities.length) ∧
    (∀ (probalities : List (List ℚ)) (n : ℕ),
      (probalities.headD []).length < 2 → BvSB_Sampling probalities n = none) ∧
    (∀ (log : ℚ → ℚ) (probalities : List (List ℚ)) (n : ℕ),
      probalities.length < n →
      (Entropy_Sampling log probalities n).length = probalities.length) := by
  refine ⟨?_, ?_, ?_⟩
  · intro probs c n hne hrect hc hn
    refine ⟨(argsort (probs.map rowMargin)).take n, ?_, ?_⟩
    · rw [BvSB_Sampling]
      simp only [if_neg (headD_length_not_lt probs c hne hrect hc)]
    · rw [List.length_take, argsort_length, List.length_map]
      omega
  · intro probs n hlt
    rw [BvSB_Sampling]
    simp only [if_pos hlt]
  · intro log probs n hn
    have hkeys : (argsort (probs.map (entropyRow log))).length = probs.length := by
      rw [argsort_length, List.length_map]
    simp only [Entropy_Sampling]
    rw [negTailSlice, if_neg (by omega), List.length_drop]
    omega

/-- C6 counterexample: requesting `n = 2` from a one-row matrix — which the
frozen claim says must fail with `ConfigurationError` — succeeds and returns
the (single) row position. -/
theorem claim_C6_counterexample :
    BvSB_Sampling [[(1:ℚ)/2, 1/2]] 2 = some [0] ∧ 1 < 2 := by
  constructor
  · norm_num [BvSB_Sampling, rowMargin, rowMaxProb, rowSecondProb, npArgmax, npArgmaxAux,
      argsort, insertionSortPairs, insertPair, List.enum, List.enumFrom, List.getD]
  · decide

/-- Witness for C6: the amended theorem applied to concrete inputs. -/
theorem claim_C6_witness :
    (∃ sel, BvSB_Sampling [[(1:ℚ)/2, 1/2], [1/3, 2/3]] 5 = some sel ∧ sel.length = 2) ∧
    BvSB_Sampling [[(1:ℚ)]] 1 = none ∧
    (Entropy_Sampling (fun q : ℚ => q) [[(1:ℚ)/2, 1/2], [1/3, 2/3]] 5).length = 2 := by
  refine ⟨?_, ?_, ?_⟩
  · have h := claim_C6.1 [[(1:ℚ)/2, 1/2], [1/3, 2/3]] 2 5
      (by simp) (by decide) (by norm_num) (by norm_num)
    simpa using h
  · exact claim_C6.2.1 [[(1:ℚ)]] 1 (by simp)
  · have h := claim_C6.2.2 (fun q : ℚ => q) [[(1:ℚ)/2, 1/2], [1/3, 2/3]] 5 (by norm_num)
    simpa using h

/-- C3, amended: `oracle_annotations` fails — numpy's `IndexError` from the
fancy-indexed reads, which precede every assignment, so nothing is mutated —
exactly when some supplied index is out of range of the current unlabelled
arrays.  Uniqueness is NOT checked: every batch of in-range indices,
duplicated or not, completes, appending one labelled row per listed
occurrence while deleting each listed position once. -/
theorem claim_C3 {F L : Type} (s : RunState F L) (indices : List ℕ)
    (hlock : s.unlabelled_y.length = s.unlabelled_X.length) :
    (oracle_annotations s indices = none
        ↔ ∃ i ∈ indices, s.unlabelled_X.length ≤ i) ∧
    ((∀ i ∈ indices, i < s.unlabelled_X.length) →
      ∃ s', oracle_annotations s indices = some s' ∧
        s'.labelled_X.length = s.labelled_X.length + indices.length ∧
        s'.unlabelled_X.length = s.unlabelled_X.length - indices.dedup.length) := by
  constructor
  · constructor
    · intro hnone
      rcases hX : fancyIndex s.unlabelled_X indices with _ | repX
      · exact (fancyIndex_eq_none_iff _ _).mp hX
      · rcases hY : fancyIndex s.unlabelled_y indices with _ | repY
        · obtain ⟨i, hi, hil⟩ := (fancyIndex_eq_none_iff _ _).mp hY
          exact ⟨i, hi, by omega⟩
        · rw [oracle_annotations, hX, hY] at hnone
          cases hnone
    · rintro ⟨i, hi, hil⟩
      have hXnone : fancyIndex s.unlabelled_X indices = none :=
        (fancyIndex_eq_none_iff _ _).mpr ⟨i, hi, hil⟩
      rw [oracle_annotations, hXnone]
  · intro hrange
    obtain ⟨repX, hX⟩ := fancyIndex_isSome _ _ hrange
    obtain ⟨repY, hY⟩ := fancyIndex_isSome s.unlabelled_y indices
      (by intro i hi; have := hrange i hi; omega)
    refine ⟨{ s with
        labelled_X := s.labelled_X ++ repX,
        labelled_y := s.labelled_y ++ repY,
        unlabelled_X := npDelete s.unlabelled_X indices,
        unlabelled_y := npDelete s.unlabelled_y indices }, ?_, ?_, ?_⟩
    · rw [oracle_annotations, hX, hY]
    · simp [List.length_append, fancyIndex_length _ _ _ hX]
    · simp [npDelete_length _ _ hrange]

/-- C3 counterexample: the frozen claim requires `IndexError` on a
non-unique batch, but the duplicated in-range batch `[0, 0]` completes:
the row at position 0 is appended to the labelled arrays TWICE while being
removed from the unlabelled arrays once (which also breaks the size
invariant: 3 labelled + 1 unlabelled over a 3-row pool). -/
theorem claim_C3_counterexample :
    oracle_annotations sPool [0, 0]
      = some { labelled_X := [10, 20, 20], labelled_y := [0, 1, 1],
               unlabelled_X := [30], unlabelled_y := [2], data := [],
               training_type := "Random", damping := 1, preference := -180,
               unique_labels := [0], trainCount := 0 } ∧
    ¬ ([0, 0] : List ℕ).Nodup := by
  exact ⟨by decide, by decide⟩

/-- Witness for C3: the amended theorem applied to the concrete pool, once
with an out-of-range index (failure, nothing moved) and once with a full
valid batch (success with the predicted sizes). -/
theorem claim_C3_witness :
    oracle_annotations sPool [5] = none ∧
    (∃ s', oracle_annotations sPool [0, 1] = some s' ∧
      s'.labelled_X.length = 3 ∧ s'.unlabelled_X.length = 0) := by
  have h := claim_C3 sPool [5] rfl
  have h2 := claim_C3 sPool [0, 1] rfl
  constructor
  · exact h.1.mpr ⟨5, by decide, by decide⟩
  · obtain ⟨s', hs', hl, hu⟩ := h2.2 (by decide)
    refine ⟨s', hs', by simpa using hl, ?_⟩
    have hd : (([0, 1] : List ℕ).dedup).length = 2 := by decide
    rw [hu, hd]
    decide

theorem filter_range_mem_perm_dedup (idx : List ℕ) (n : ℕ)
    (h : ∀ i ∈ idx, i < n) :
    List.Perm ((List.range n).filter (fun i => decide (i ∈ idx))) idx.dedup := by
  refine (List.perm_ext_iff_of_nodup ((List.nodup_range n).filter _)
    idx.nodup_dedup).mpr ?_
  intro a
  simp only [List.mem_filter, List.mem_range, List.mem_dedup, decide_eq_true_eq]
  exact ⟨fun ha => ha.2, fun ha => ⟨h a ha, ha⟩⟩

theorem nodup_length_le_of_lt (idx : List ℕ) (n : ℕ) (hnd : idx.Nodup)
    (h : ∀ i ∈ idx, i < n) : idx.length ≤ n := by
  have h1 := (filter_range_mem_perm_dedup idx n h).length_eq
  have h2 := List.length_filter_le (fun i => decide (i ∈ idx)) (List.range n)
  rw [List.length_range] at h2
  rw [hnd.dedup] at h1
  omega

/-- C1: for every pool state and every batch of unique, in-range
unlabelled-relative indices, `oracle_annotations` preserves the sum of the
labelled and unlabelled sizes (feature and label arrays alike); and the
remaining operations of the run (`train_model`, `run_classification`) leave
the pool arrays entirely untouched, so the sum equals the original dataset
size throughout the run. -/
theorem claim_C1 {F L : Type} [DecidableEq L] (s : RunState F L)
    (indices : List ℕ) (hnd : indices.Nodup)
    (hrange : ∀ i ∈ indices, i < s.unlabelled_X.length)
    (hlock : s.unlabelled_y.length = s.unlabelled_X.length) :
    (∀ s', oracle_annotations s indices = some s' →
      s'.labelled_X.length + s'.unlabelled_X.length
        = s.labelled_X.length + s.unlabelled_X.length ∧
      s'.labelled_y.length + s'.unlabelled_y.length
        = s.labelled_y.length + s.unlabelled_y.length) ∧
    (∀ cm : RunState F L → ℚ × ℚ × ℚ,
      (train_model cm s).labelled_X = s.labelled_X ∧
      (train_model cm s).labelled_y = s.labelled_y ∧
      (train_model cm s).unlabelled_X = s.unlabelled_X ∧
      (train_model cm s).unlabelled_y = s.unlabelled_y ∧
      (run_classification cm s).labelled_X = s.labelled_X ∧
      (run_classification cm s).labelled_y = s.labelled_y ∧
      (run_classification cm s).unlabelled_X = s.unlabelled_X ∧
      (run_classification cm s).unlabelled_y = s.unlabelled_y) := by
  constructor
  · intro s' hs'
    rcases hX : fancyIndex s.unlabelled_X indices with _ | repX
    · rw [oracle_annotations, hX] at hs'
      cases hs'
    · rcases hY : fancyIndex s.unlabelled_y indices with _ | repY
      · rw [oracle_annotations, hX, hY] at hs'
        cases hs'
      · rw [oracle_annotations, hX, hY] at hs'
        cases hs'
        have hkX : repX.length = indices.length := fancyIndex_length _ _ _ hX
        have hkY : repY.length = indices.length := fancyIndex_length _ _ _ hY
        have hDX : (npDelete s.unlabelled_X indices).length
            = s.unlabelled_X.length - indices.dedup.length :=
          npDelete_length _ _ hrange
        have hDY : (npDelete s.unlabelled_y indices).length
            = s.unlabelled_y.length - indices.dedup.length :=
          npDelete_length _ _ (by intro i hi; have := hrange i hi; omega)
        have hdd : indices.dedup = indices := hnd.dedup
        have hle : indices.length ≤ s.unlabelled_X.length :=
          nodup_length_le_of_lt indices _ hnd hrange
        refine ⟨?_, ?_⟩
        · show (s.labelled_X ++ repX).length
              + (npDelete s.unlabelled_X indices).length = _
          rw [List.length_append, hkX, hDX, hdd]
          omega
        · show (s.labelled_y ++ repY).length
              + (npDelete s.unlabelled_y indices).length = _
          rw [List.length_append, hkY, hDY, hdd]
          omega
  · intro cm
    exact ⟨rfl, rfl, rfl, rfl, rfl, rfl, rfl, rfl⟩

/-- Witness for C1 on the concrete pool `sPool` and batch `[0]`. -/
theorem claim_C1_witness :
    oracle_annotations sPool [0] = some sPool1 ∧
    sPool1.labelled_X.length + sPool1.unlabelled_X.length
      = sPool.labelled_X.length + sPool.unlabelled_X.length ∧
    (train_model (fun _ => (0, 0, 0)) sPool).unlabelled_X = sPool.unlabelled_X := by
  have heq : oracle_annotations sPool [0] = some sPool1 := by decide
  have h := claim_C1 sPool [0] (by decide) (by decide) rfl
  exact ⟨heq, (h.1 sPool1 heq).1, (h.2 (fun _ => (0, 0, 0))).2.2.1⟩

/-- C2: after `annotate(indices)` with unique in-range indices, the labelled
arrays are the previous labelled rows followed by exactly the rows previously
at the listed unlabelled positions, in the order the indices were given
(feature vectors and labels in lockstep), and the remaining unlabelled rows
form the subsequence of the previous unlabelled arrays at the positions not
listed, in their previous relative order. -/
theorem claim_C2 {F L : Type} (s : RunState F L) (indices : List ℕ)
    (hnd : indices.Nodup) (hrange : ∀ i ∈ indices, i < s.unlabelled_X.length)
    (hlock : s.unlabelled_y.length = s.unlabelled_X.length) :
    ∃ s' movedX movedY,
      oracle_annotations s indices = some s' ∧
      fancyIndex s.unlabelled_X indices = some movedX ∧
      fancyIndex s.unlabelled_y indices = some movedY ∧
      s'.labelled_X = s.labelled_X ++ movedX ∧
      s'.labelled_y = s.labelled_y ++ movedY ∧
      (∀ (k i : ℕ), indices[k]? = some i →
        movedX[k]? = s.unlabelled_X[i]? ∧ movedY[k]? = s.unlabelled_y[i]?) ∧
      List.Sublist s'.unlabelled_X s.unlabelled_X ∧
      List.Sublist s'.unlabelled_y s.unlabelled_y ∧
      (∀ (t i : ℕ),
        ((List.range s.unlabelled_X.length).filter
          (fun j => !(decide (j ∈ indices))))[t]? = some i →
        s'.unlabelled_X[t]? = s.unlabelled_X[i]?) ∧
      s'.unlabelled_X.length = s.unlabelled_X.length - indices.length ∧
      s'.unlabelled_y.length = s.unlabelled_y.length - indices.length := by
  obtain ⟨repX, hX⟩ := fancyIndex_isSome _ _ hrange
  obtain ⟨repY, hY⟩ := fancyIndex_isSome s.unlabelled_y indices
    (by intro i hi; have := hrange i hi; omega)
  refine ⟨{ s with
      labelled_X := s.labelled_X ++ repX,
      labelled_y := s.labelled_y ++ repY,
      unlabelled_X := npDelete s.unlabelled_X indices,
      unlabelled_y := npDelete s.unlabelled_y indices },
    repX, repY, ?_, hX, hY, rfl, rfl, ?_, ?_, ?_, ?_, ?_, ?_⟩
  · rw [oracle_annotations, hX, hY]
  · intro k i hk
    exact ⟨fancyIndex_getElem _ _ _ hX k i hk, fancyIndex_getElem _ _ _ hY k i hk⟩
  · exact npDelete_sublist _ _
  · exact npDelete_sublist _ _
  · intro t i ht
    exact npDelete_getElem _ _ _ _ ht
  · show (npDelete s.unlabelled_X indices).length = _
    rw [npDelete_length _ _ hrange, hnd.dedup]
  · show (npDelete s.unlabelled_y indices).length = _
    rw [npDelete_length _ _ (by intro i hi; have := hrange i hi; omega), hnd.dedup]

/-- Witness for C2 on the concrete pool `sPool` and batch `[1]`. -/
theorem claim_C2_witness :
    ∃ s' movedX movedY,
      oracle_annotations sPool [1] = some s' ∧
      fancyIndex sPool.unlabelled_X [1] = some movedX ∧
      fancyIndex sPool.unlabelled_y [1] = some movedY ∧
      s'.labelled_X = sPool.labelled_X ++ movedX ∧
      s'.labelled_y = sPool.labelled_y ++ movedY ∧
      s'.unlabelled_X.length = 1 := by
  obtain ⟨s', mX, mY, h1, h2, h3, h4, h5, _h6, _h7, _h8, _h9, h10, _⟩ :=
    claim_C2 sPool [1] (by decide) (by decide) rfl
  exact ⟨s', mX, mY, h1, h2, h3, h4, h5, by rw [h10]; decide⟩

/-- C7: in the phase-1 novelty scan, a point is in the novel set if and only
if it is an unlabelled point flagged as outside the learned support by EVERY
per-label detector (logical AND across the detectors fitted on each label's
rows); a point flagged by some but not all detectors is never in the novel
set. -/
theorem claim_C7 {F L : Type} [DecidableEq L]
    (oc : List F → F → Bool) (s : RunState F L) (x : F) :
    x ∈ step1NovelPoints oc s
      ↔ x ∈ s.unlabelled_X
        ∧ ∀ lab ∈ s.unique_labels, oc (labelRows s lab) x = true := by
  rw [step1NovelPoints_eq_filter, List.mem_filter]
  simp [List.all_eq_true]

/-- Witness for C7: 99 (flagged by every detector) is novel; 10 (flagged by
detector 1 but not detector 0) is NOT in the novel set. -/
theorem claim_C7_witness :
    99 ∈ step1NovelPoints ocW sNov ∧ 10 ∉ step1NovelPoints ocW sNov := by
  constructor
  · exact (claim_C7 ocW sNov 99).mpr ⟨by decide, by decide⟩
  · intro h
    have h2 := ((claim_C7 ocW sNov 10).mp h).2 0 (by decide)
    exact absurd h2 (by decide)

theorem oracle_annotations_log_fields {F L : Type} (s s' : RunState F L)
    (idx : List ℕ) (h : oracle_annotations s idx = some s') :
    s'.data = s.data ∧ s'.trainCount = s.trainCount := by
  rcases hX : fancyIndex s.unlabelled_X idx with _ | repX
  · rw [oracle_annotations, hX] at h
    cases h
  · rcases hY : fancyIndex s.unlabelled_y idx with _ | repY
    · rw [oracle_annotations, hX, hY] at h
      cases h
    · rw [oracle_annotations, hX, hY] at h
      cases h
      exact ⟨rfl, rfl⟩

/-- C8, amended: every `run_classification` call appends exactly one record
and never modifies or removes earlier ones (the table is append-only, in
completion order), and every `train_model` call performs one fit and appends
exactly one record through its internal evaluation — but a phase-2 iteration
additionally calls `run_classification` directly after `train_model`
(`OCluDAL.py:299` and `OCluDAL.py:302`), so each phase-2 retrain is followed
by TWO appended records, not exactly one. -/
theorem claim_C8 :
    (∀ (F L : Type) [DecidableEq L] (cm : RunState F L → ℚ × ℚ × ℚ)
       (s : RunState F L),
      ∃ r, (run_classification cm s).data = s.data ++ [r]) ∧
    (∀ (F L : Type) [DecidableEq L] (cm : RunState F L → ℚ × ℚ × ℚ)
       (s : RunState F L),
      (∃ r, (train_model cm s).data = s.data ++ [r]) ∧
      (train_model cm s).trainCount = s.trainCount + 1) ∧
    (∀ (F L : Type) [DecidableEq L] (cm : RunState F L → ℚ × ℚ × ℚ)
       (proba : RunState F L → List (List ℚ)) (qlog : ℚ → ℚ) (st : String)
       (n g : ℕ) (s s' : RunState F L) (g' : ℕ),
      step2Iter cm proba qlog st n g s = some (s', g') →
      s'.trainCount = s.trainCount + 1 ∧
      ∃ r₁ r₂, s'.data = s.data ++ [r₁, r₂]) := by
  refine ⟨?_, ?_, ?_⟩
  · intro F L _ cm s
    exact ⟨_, rfl⟩
  · intro F L _ cm s
    exact ⟨⟨_, rfl⟩, rfl⟩
  · intro F L _ cm proba qlog st n g s s' g' h
    simp only [step2Iter] at h
    rcases hsel : (step2Select qlog st g
        (proba (run_classification cm (train_model cm s)))
        (run_classification cm (train_model cm s)).unlabelled_X.length n).1
      with _ | idx
    · simp only [hsel] at h
      cases h
    · simp only [hsel] at h
      rcases hor : oracle_annotations (run_classification cm (train_model cm s)) idx
        with _ | s3
      · simp only [hor] at h
        cases h
      · simp only [hor] at h
        cases h
        obtain ⟨hdata, htc⟩ :=
          oracle_annotations_log_fields (run_classification cm (train_model cm s)) _ idx hor
        constructor
        · rw [htc]
          rfl
        · refine ⟨runRecord cm { s with trainCount := s.trainCount + 1 },
            runRecord cm (train_model cm s), ?_⟩
          rw [hdata]
          show (s.data ++ [runRecord cm { s with trainCount := s.trainCount + 1 }])
              ++ [runRecord cm (train_model cm s)] = _
          rw [List.append_assoc]
          rfl

/-- C8 counterexample: one phase-2 iteration on the concrete pool performs
exactly one classifier fit but appends TWO Iteration Records, so "after every
retrain exactly one record is appended" fails on the code. -/
theorem claim_C8_counterexample :
    (step2Iter (fun _ => (0, 0, 0)) (fun _ => []) (fun q => q) "Random" 1 0 sPool).map
        (fun p => (p.1.data.length, p.1.trainCount)) = some (2, 1) ∧ (2 : ℕ) ≠ 1 := by
  exact ⟨by decide, by decide⟩

/-- Witness for C8: the amended theorem applied to the concrete pool. -/
theorem claim_C8_witness :
    (∃ r, (run_classification (fun _ => (0, 0, 0)) sPool).data = sPool.data ++ [r]) ∧
    (∃ (r₁ r₂ : IterationRecord) (s' : RunState ℕ ℕ) (g' : ℕ),
      step2Iter (fun _ => (0, 0, 0)) (fun _ => []) (fun q => q) "Random" 1 0 sPool
        = some (s', g') ∧ s'.data = sPool.data ++ [r₁, r₂]) := by
  constructor
  · exact claim_C8.1 ℕ ℕ (fun _ => (0, 0, 0)) sPool
  · rcases hx : step2Iter (fun _ => (0, 0, 0)) (fun _ => []) (fun q => q) "Random" 1 0 sPool
      with _ | p
    · exact absurd hx (by decide)
    · obtain ⟨_, r₁, r₂, hdata⟩ :=
        claim_C8.2.2 ℕ ℕ (fun _ => (0, 0, 0)) (fun _ => []) (fun q => q) "Random" 1 0
          sPool p.1 p.2 (hx.trans rfl)
      exact ⟨r₁, r₂, p.1, p.2, rfl, hdata⟩

theorem step1Loop_no_novel {F L : Type} [DecidableEq F] [DecidableEq L]
    (cm : RunState F L → ℚ × ℚ × ℚ) (oc : List F → F → Bool)
    (ap : List F → List F) (max_samples k : ℕ) (s2 : RunState F L)
    (hms : s2.labelled_X.length < max_samples)
    (hnov : step1NovelPoints oc s2 = []) :
    step1Loop cm oc ap max_samples (k + 1) s2 = some s2 := by
  simp only [step1Loop]
  rw [if_pos hms, hnov]
  simp

/-- C9: if the novelty scan of phase 1 finds zero novel points on its first
iteration, `step1` terminates immediately without clustering or annotating:
exactly one classifier training round is performed, exactly one Iteration
Record is appended, the pool arrays are untouched, and the result does not
depend on the clustering collaborator at all. -/
theorem claim_C9 {F L : Type} [DecidableEq F] [DecidableEq L]
    (cm : RunState F L → ℚ × ℚ × ℚ) (oc : List F → F → Bool)
    (ap : List F → List F) (max_iter max_samples : ℕ) (s : RunState F L)
    (hmi : 1 ≤ max_iter) (hms : s.labelled_X.length < max_samples)
    (hnovel : step1NovelPoints oc s = []) :
    ∃ s', step1 cm oc ap max_iter max_samples s = some s' ∧
      (∃ r, s'.data = s.data ++ [r]) ∧
      s'.trainCount = s.trainCount + 1 ∧
      s'.labelled_X = s.labelled_X ∧ s'.labelled_y = s.labelled_y ∧
      s'.unlabelled_X = s.unlabelled_X ∧ s'.unlabelled_y = s.unlabelled_y ∧
      (∀ ap₂ : List F → List F,
        step1 cm oc ap₂ max_iter max_samples s
          = step1 cm oc ap max_iter max_samples s) := by
  obtain ⟨k, rfl⟩ : ∃ k, max_iter = k + 1 := ⟨max_iter - 1, by omega⟩
  have key : ∀ ap₀ : List F → List F,
      step1 cm oc ap₀ (k + 1) max_samples s
        = some { train_model cm s with training_type := "AP" } := by
    intro ap₀
    exact step1Loop_no_novel cm oc ap₀ max_samples k
      { train_model cm s with training_type := "AP" } hms hnovel
  refine ⟨{ train_model cm s with training_type := "AP" }, key ap, ⟨_, rfl⟩, rfl,
    rfl, rfl, rfl, rfl, fun ap₂ => (key ap₂).trans (key ap).symm⟩

/-- Witness for C9: a concrete run in which no unlabelled point is flagged
novel; phase 1 exits after one training round with one appended record. -/
theorem claim_C9_witness :
    ∃ s', step1 (fun _ => (0, 0, 0)) (fun _ _ => false) (fun l => l) 1 100 sPool
        = some s' ∧
      (∃ r, s'.data = sPool.data ++ [r]) ∧ s'.trainCount = 1 ∧
      s'.unlabelled_X = sPool.unlabelled_X := by
  obtain ⟨s', h1, h2, h3, _h4, _h5, h6, _h7, _h8⟩ :=
    claim_C9 (fun _ => (0, 0, 0)) (fun _ _ => false) (fun l => l) 1 100 sPool
      (by decide) (by decide) (by decide)
  refine ⟨s', h1, h2, ?_, h6⟩
  rw [h3]
  decide

/-- C10: `BvSB_Sampling` and `Entropy_Sampling` are deterministic — two
calls with equal inputs return the identical index sequence — and, in the
`step2` dispatch with the global random state made explicit, their output is
independent of the random state and they leave it unchanged (unlike
`Random_sampling`, which consumes it). -/
theorem claim_C10 :
    (∀ (probs₁ probs₂ : List (List ℚ)) (n₁ n₂ : ℕ), probs₁ = probs₂ → n₁ = n₂ →
      BvSB_Sampling probs₁ n₁ = BvSB_Sampling probs₂ n₂ ∧
      ∀ log : ℚ → ℚ, Entropy_Sampling log probs₁ n₁ = Entropy_Sampling log probs₂ n₂) ∧
    (∀ (qlog : ℚ → ℚ) (probs : List (List ℚ)) (poolLen n g₁ g₂ : ℕ),
      (step2Select qlog "BvSB" g₁ probs poolLen n).1
        = (step2Select qlog "BvSB" g₂ probs poolLen n).1 ∧
      (step2Select qlog "BvSB" g₁ probs poolLen n).2 = g₁ ∧
      (step2Select qlog "Entropy" g₁ probs poolLen n).1
        = (step2Select qlog "Entropy" g₂ probs poolLen n).1 ∧
      (step2Select qlog "Entropy" g₁ probs poolLen n).2 = g₁) := by
  constructor
  · rintro p₁ p₂ n₁ n₂ rfl rfl
    exact ⟨rfl, fun _ => rfl⟩
  · intro qlog probs poolLen n g₁ g₂
    exact ⟨rfl, rfl, rfl, rfl⟩

/-- Witness for C10 at concrete inputs and two different generator states. -/
theorem claim_C10_witness :
    BvSB_Sampling [[(1:ℚ), 0]] 1 = BvSB_Sampling [[(1:ℚ), 0]] 1 ∧
    (step2Select (fun q : ℚ => q) "BvSB" 0 [[(1:ℚ), 0]] 2 1).1
      = (step2Select (fun q : ℚ => q) "BvSB" 7 [[(1:ℚ), 0]] 2 1).1 ∧
    (step2Select (fun q : ℚ => q) "Entropy" 0 [[(1:ℚ), 0]] 2 1).2 = 0 := by
  exact ⟨(claim_C10.1 [[(1:ℚ), 0]] [[(1:ℚ), 0]] 1 1 rfl rfl).1,
    (claim_C10.2 (fun q => q) [[(1:ℚ), 0]] 2 1 0 7).1,
    (claim_C10.2 (fun q => q) [[(1:ℚ), 0]] 2 1 0 7).2.2.2⟩
